import Mathlib

/-!
Verification of the transaction codec in `bitcoin/txn.py` (eloipool).

The embedding models the Python class `Txn` as a record of optional fields
(a Python attribute that has not been assigned is `none`), byte strings as
`List Nat`, and Python exceptions as `Except Err`.  The methods
`__init__`, `new`, `setCoinbase`, `addInput`, `addOutput`, `disassemble`,
`isCoinbase`, `getCoinbase`, `assemble` and `idhash` are transcribed
statement by statement from the source.  `disassemble` is modelled as a
state transformer returning the updated object even when an exception is
raised, because the Python method assigns `self.version`, `self.inputs`,
`self.outputs` and `self.locktime` one at a time as parsing proceeds, so a
failure can leave earlier assignments visible.

The collaborators `varlenDecode` / `varlenEncode` (bitcoin/varlen.py),
`bitcoin.script.encodeUNum` (bitcoin/script.py) and `dblsha` (util.py) are
part of the repository but are not under the sources provided; the varint
codec and the height encoding are modelled from the spec (CompactSize
rules, minimal-length BIP 34 height encoding), and the double hash is kept
as an arbitrary parameter `dblsha : ByteSeq → ByteSeq`, so every theorem
holds for the real hash function in particular.
-/

/-- Byte strings are lists of naturals; each entry is one byte. -/
abbrev ByteSeq := List Nat

/-- Python exceptions raised by the codec.  `truncatedInput` models both
`struct.error` from `unpack` applied to a slice shorter than the format
requires and `IndexError` from indexing past the end of a byte string;
`trailingData` models the failure of the `assert len(data) == 4` in
`disassemble`; `internalConsistency` models the failure of the
`assert data == self.data[rc[0]:]` in the `retExtra` branch;
`attributeError` models access to a never-assigned attribute;
`structRange` models `struct.error` from `pack` on an out-of-range value. -/
inductive Err where
  | truncatedInput
  | trailingData
  | internalConsistency
  | attributeError
  | structRange
deriving DecidableEq, Repr

/-- Little-endian bytes of `n`, exactly `w` bytes wide. -/
def natToLE : Nat → Nat → ByteSeq
  | 0, _ => []
  | w + 1, n => n % 256 :: natToLE w (n / 256)

/-- The numeric value of a little-endian byte string. -/
def leNat : ByteSeq → Nat
  | [] => 0
  | b :: r => b + 256 * leNat r

/-- `struct.unpack` of one unsigned little-endian integer of width `w`:
it demands exactly `w` bytes and raises `struct.error` otherwise. -/
def unpackLE (w : Nat) (b : ByteSeq) : Except Err Nat :=
  if b.length = w then .ok (leNat b) else .error .truncatedInput

/-- `struct.pack` of one unsigned little-endian integer of width `w`:
it raises `struct.error` when the value does not fit. -/
def packLE (w n : Nat) : Except Err ByteSeq :=
  if n < 2 ^ (8 * w) then .ok (natToLE w n) else .error .structRange

/-- Modelled from the spec: `varlenDecode` (bitcoin/varlen.py is not under
the provided sources).  Decodes one CompactSize integer from the front of
the buffer: 1, 3, 5, or 9 bytes depending on the first byte, returning the
value, the unconsumed remainder, and the number of bytes consumed (the
amount by which the position counter is advanced). -/
def varlenDecode (b : ByteSeq) : Except Err (Nat × ByteSeq × Nat) :=
  match b with
  | [] => .error .truncatedInput
  | x :: r =>
    if x = 0xff then
      match unpackLE 8 (r.take 8) with
      | .error e => .error e
      | .ok v => .ok (v, r.drop 8, 9)
    else if x = 0xfe then
      match unpackLE 4 (r.take 4) with
      | .error e => .error e
      | .ok v => .ok (v, r.drop 4, 5)
    else if x = 0xfd then
      match unpackLE 2 (r.take 2) with
      | .error e => .error e
      | .ok v => .ok (v, r.drop 2, 3)
    else .ok (x, r, 1)

/-- Modelled from the spec: `varlenEncode` (bitcoin/varlen.py is not under
the provided sources).  Minimal-length CompactSize encoding. -/
def varlenEncode (n : Nat) : Except Err ByteSeq :=
  if n < 0xfd then .ok [n]
  else if n ≤ 0xffff then .ok (0xfd :: natToLE 2 n)
  else if n ≤ 0xffffffff then .ok (0xfe :: natToLE 4 n)
  else if n < 2 ^ 64 then .ok (0xff :: natToLE 8 n)
  else .error .structRange

/-- Modelled from the spec: the byte body of the minimal-length numeric
encoding required by BIP 34 for a block height — little-endian digits,
using as few bytes as possible while keeping the top byte below 0x80
(`bitcoin.script.encodeUNum` of bitcoin/script.py is not under the
provided sources). -/
def encodeUNumBody (n : Nat) : ByteSeq :=
  if h : n ≤ 127 then [n]
  else n % 256 :: encodeUNumBody (n / 256)
termination_by n
decreasing_by
  exact Nat.div_lt_self (by omega) (by omega)

/-- Modelled from the spec: `bitcoin.script.encodeUNum` — a minimal push
of the height: length byte followed by the little-endian digits. -/
def encodeUNum (n : Nat) : ByteSeq :=
  (encodeUNumBody n).length :: encodeUNumBody n

/-- `_nullprev`: 32 zero bytes, the previous-output hash of a coinbase. -/
def nullprev : ByteSeq := List.replicate 32 0

/-- One transaction input `((prevout_hash, prevout_index), sigScript,
seqno)` of txn.py, with named fields. -/
structure TxIn where
  prevHash : ByteSeq
  prevIndex : Nat
  sigScript : ByteSeq
  seqno : Nat
deriving DecidableEq, Repr

/-- One transaction output `(amount, pkScript)` of txn.py. -/
structure TxOut where
  amount : Nat
  pkScript : ByteSeq
deriving DecidableEq, Repr

/-- The `Txn` object.  Each field is `none` while the corresponding Python
attribute has not been assigned. -/
structure Txn where
  data : Option ByteSeq := none
  txid : Option ByteSeq := none
  version : Option Nat := none
  inputs : Option (List TxIn) := none
  outputs : Option (List TxOut) := none
  locktime : Option Nat := none
deriving DecidableEq, Repr

/-- `Txn.__init__(self, data=None)`: when `data` is truthy (present and
non-empty) it is stored and `idhash` is invoked at once; otherwise nothing
is assigned. -/
def Txn.init (dblsha : ByteSeq → ByteSeq) (data : Option ByteSeq) : Txn :=
  match data with
  | none => {}
  | some d => if d = [] then {} else { data := some d, txid := some (dblsha d) }

/-- `Txn.new()`: an empty transaction with version 1, no inputs, no
outputs, locktime 0, and no cached raw bytes. -/
def Txn.new : Txn :=
  { version := some 1, inputs := some [], outputs := some [], locktime := some 0 }

/-- `Txn.setCoinbase(sigScript, seqno=0xffffffff, height=None)`: replaces
the whole input sequence with the single coinbase input; when a height is
given its minimal encoding is prepended to the script. -/
def Txn.setCoinbase (t : Txn) (sigScript : ByteSeq) (seqno : Nat)
    (height : Option Nat) : Txn :=
  let s := match height with
    | some h => encodeUNum h ++ sigScript
    | none => sigScript
  { t with inputs := some [⟨nullprev, 0xffffffff, s, seqno⟩] }

/-- `Txn.addInput(prevout, sigScript, seqno=0xffffffff)`. -/
def Txn.addInput (t : Txn) (prevout : ByteSeq × Nat) (sigScript : ByteSeq)
    (seqno : Nat) : Except Err Txn :=
  match t.inputs with
  | none => .error .attributeError
  | some ins => .ok { t with inputs := some (ins ++ [⟨prevout.1, prevout.2, sigScript, seqno⟩]) }

/-- `Txn.addOutput(amount, pkScript)`. -/
def Txn.addOutput (t : Txn) (amount : Nat) (pkScript : ByteSeq) : Except Err Txn :=
  match t.outputs with
  | none => .error .attributeError
  | some outs => .ok { t with outputs := some (outs ++ [⟨amount, pkScript⟩]) }

/-- `Txn.isCoinbase()`: `len(self.inputs) == 1 and self.inputs[0][0] ==
(_nullprev, 0xffffffff)`. -/
def Txn.isCoinbase (t : Txn) : Except Err Bool :=
  match t.inputs with
  | none => .error .attributeError
  | some ins =>
    match ins with
    | [i] => .ok (decide (i.prevHash = nullprev) && decide (i.prevIndex = 0xffffffff))
    | _ => .ok false

/-- `Txn.getCoinbase()`: `self.inputs[0][1]`. -/
def Txn.getCoinbase (t : Txn) : Except Err ByteSeq :=
  match t.inputs with
  | none => .error .attributeError
  | some [] => .error .truncatedInput
  | some (i :: _) => .ok i.sigScript

/-- `Txn.idhash()`: `self.txid = dblsha(self.data)`. -/
def Txn.idhash (t : Txn) (dblsha : ByteSeq → ByteSeq) : Except Err Txn :=
  match t.data with
  | none => .error .attributeError
  | some d => .ok { t with txid := some (dblsha d) }

/-- The input loop of `Txn.disassemble`: for each of the `n` inputs read
the 32-byte previous-output hash, the 4-byte little-endian index, the
varint script length, the script, and the 4-byte sequence number, threading
the remaining data and the position counter `rc`. -/
def parseInputs : Nat → ByteSeq → Nat → Except Err (List TxIn × ByteSeq × Nat)
  | 0, d, rc => .ok ([], d, rc)
  | n + 1, d, rc =>
    match unpackLE 4 ((d.drop 32).take 4) with
    | .error e => .error e
    | .ok idx =>
      match varlenDecode (d.drop 36) with
      | .error e => .error e
      | .ok (slen, d1, c) =>
        match unpackLE 4 ((d1.drop slen).take 4) with
        | .error e => .error e
        | .ok seq =>
          match parseInputs n (d1.drop (slen + 4)) (rc + 36 + c + slen + 4) with
          | .error e => .error e
          | .ok (rest, d2, rc2) =>
            .ok (⟨d.take 32, idx, d1.take slen, seq⟩ :: rest, d2, rc2)

/-- The output loop of `Txn.disassemble`: for each of the `n` outputs read
the 8-byte little-endian amount, the varint script length and the script. -/
def parseOutputs : Nat → ByteSeq → Nat → Except Err (List TxOut × ByteSeq × Nat)
  | 0, d, rc => .ok ([], d, rc)
  | n + 1, d, rc =>
    match unpackLE 8 (d.take 8) with
    | .error e => .error e
    | .ok amount =>
      match varlenDecode (d.drop 8) with
      | .error e => .error e
      | .ok (slen, d1, c) =>
        match parseOutputs n (d1.drop slen) (rc + 8 + c + slen) with
        | .error e => .error e
        | .ok (rest, d2, rc2) =>
          .ok (⟨amount, d1.take slen⟩ :: rest, d2, rc2)

/-- `Txn.disassemble(retExtra=False)` as a state transformer: the first
component of the result is the object after the call (the Python method
assigns `self.version`, `self.inputs`, `self.outputs`, `self.locktime` in
that order as parsing proceeds, so on an exception the earlier assignments
remain), the second is the returned value (`none` in the strict branch,
the trailing bytes in the `retExtra` branch) or the exception raised. -/
def Txn.disassemble (t : Txn) (retExtra : Bool) : Txn × Except Err (Option ByteSeq) :=
  match t.data with
  | none => (t, .error .attributeError)
  | some sd =>
    match unpackLE 4 (sd.take 4) with
    | .error e => (t, .error e)
    | .ok v =>
      let t1 := { t with version := some v }
      match varlenDecode (sd.drop 4) with
      | .error e => (t1, .error e)
      | .ok (inputCount, d, c) =>
        match parseInputs inputCount d (4 + c) with
        | .error e => (t1, .error e)
        | .ok (ins, d, rc) =>
          let t2 := { t1 with inputs := some ins }
          match varlenDecode d with
          | .error e => (t2, .error e)
          | .ok (outputCount, d, c2) =>
            match parseOutputs outputCount d (rc + c2) with
            | .error e => (t2, .error e)
            | .ok (outs, d, rc) =>
              let t3 := { t2 with outputs := some outs }
              match unpackLE 4 (d.take 4) with
              | .error e => (t3, .error e)
              | .ok lk =>
                let t4 := { t3 with locktime := some lk }
                if retExtra = false then
                  if d.length = 4 then (t4, .ok none) else (t4, .error .trailingData)
                else
                  if d = sd.drop rc then
                    ({ t4 with data := some (sd.take (rc + 4)) }, .ok (some (d.drop 4)))
                  else (t4, .error .internalConsistency)

/-- The input loop of `Txn.assemble`: previous-output hash, packed index,
varint script length, script, packed sequence number, for each input in
order. -/
def assembleInputs : List TxIn → Except Err ByteSeq
  | [] => .ok []
  | i :: rest =>
    match packLE 4 i.prevIndex with
    | .error e => .error e
    | .ok idxB =>
      match varlenEncode i.sigScript.length with
      | .error e => .error e
      | .ok sl =>
        match packLE 4 i.seqno with
        | .error e => .error e
        | .ok sq =>
          match assembleInputs rest with
          | .error e => .error e
          | .ok r => .ok (i.prevHash ++ (idxB ++ (sl ++ (i.sigScript ++ (sq ++ r)))))

/-- The output loop of `Txn.assemble`: packed amount, varint script
length, script, for each output in order. -/
def assembleOutputs : List TxOut → Except Err ByteSeq
  | [] => .ok []
  | o :: rest =>
    match packLE 8 o.amount with
    | .error e => .error e
    | .ok amtB =>
      match varlenEncode o.pkScript.length with
      | .error e => .error e
      | .ok sl =>
        match assembleOutputs rest with
        | .error e => .error e
        | .ok r => .ok (amtB ++ (sl ++ (o.pkScript ++ r)))

/-- The byte string built by `Txn.assemble`: packed version, varint input
count, the inputs, varint output count, the outputs, packed locktime. -/
def assembleBytes (version : Nat) (inputs : List TxIn) (outputs : List TxOut)
    (locktime : Nat) : Except Err ByteSeq :=
  match packLE 4 version with
  | .error e => .error e
  | .ok d0 =>
    match varlenEncode inputs.length with
    | .error e => .error e
    | .ok cIn =>
      match assembleInputs inputs with
      | .error e => .error e
      | .ok dIn =>
        match varlenEncode outputs.length with
        | .error e => .error e
        | .ok cOut =>
          match assembleOutputs outputs with
          | .error e => .error e
          | .ok dOut =>
            match packLE 4 locktime with
            | .error e => .error e
            | .ok dLk => .ok (d0 ++ (cIn ++ (dIn ++ (cOut ++ (dOut ++ dLk)))))

/-- `Txn.assemble()`: serialize the fields, store the bytes as the new raw
data and recompute the identity hash over them. -/
def Txn.assemble (t : Txn) (dblsha : ByteSeq → ByteSeq) : Except Err Txn :=
  match t.version, t.inputs, t.outputs, t.locktime with
  | some v, some ins, some outs, some lk =>
    match assembleBytes v ins outs lk with
    | .error e => .error e
    | .ok d => .ok { t with data := some d, txid := some (dblsha d) }
  | _, _, _, _ => .error .attributeError

/-! ### Little-endian packing lemmas -/

theorem natToLE_length (w n : Nat) : (natToLE w n).length = w := by
  induction w generalizing n with
  | zero => rfl
  | succ w ih => simp [natToLE, ih]

theorem leNat_natToLE (w n : Nat) (h : n < 2 ^ (8 * w)) :
    leNat (natToLE w n) = n := by
  induction w generalizing n with
  | zero =>
    have h0 : n = 0 := by simpa using h
    simp [natToLE, leNat, h0]
  | succ w ih =>
    have hpow : (2 : Nat) ^ (8 * (w + 1)) = 2 ^ (8 * w) * 256 := by
      rw [show 8 * (w + 1) = 8 * w + 8 by ring, pow_add]
      norm_num
    have h2 : n / 256 < 2 ^ (8 * w) :=
      (Nat.div_lt_iff_lt_mul (by norm_num)).2 (hpow ▸ h)
    simp [natToLE, leNat, ih _ h2]
    omega

theorem unpackLE_exact (w n : Nat) (h : n < 2 ^ (8 * w)) :
    unpackLE w (natToLE w n) = .ok n := by
  simp [unpackLE, natToLE_length, leNat_natToLE _ _ h]

theorem take_led (w n : Nat) (rest : ByteSeq) :
    (natToLE w n ++ rest).take w = natToLE w n :=
  List.take_left' (natToLE_length w n)

theorem drop_led (w n : Nat) (rest : ByteSeq) :
    (natToLE w n ++ rest).drop w = rest :=
  List.drop_left' (natToLE_length w n)

theorem unpackLE_append (w n : Nat) (rest : ByteSeq) (h : n < 2 ^ (8 * w)) :
    unpackLE w ((natToLE w n ++ rest).take w) = .ok n := by
  rw [take_led]; exact unpackLE_exact w n h

theorem unpackLE_short (w : Nat) (b : ByteSeq) (h : b.length < w) :
    unpackLE w (b.take w) = .error .truncatedInput := by
  have hne : (b.take w).length ≠ w := by
    rw [List.length_take]; omega
  unfold unpackLE
  rw [if_neg hne]

theorem packLE_ok {w n : Nat} {b : ByteSeq} (h : packLE w n = .ok b) :
    b = natToLE w n ∧ n < 2 ^ (8 * w) := by
  unfold packLE at h
  split at h
  · injection h with h'; exact ⟨h'.symm, by assumption⟩
  · cases h

/-! ### CompactSize codec lemmas -/

theorem varlenDecode_append {n : Nat} {e : ByteSeq} (hE : varlenEncode n = .ok e)
    (rest : ByteSeq) : varlenDecode (e ++ rest) = .ok (n, rest, e.length) := by
  unfold varlenEncode at hE
  split at hE
  case isTrue h =>
    injection hE with h1; subst h1
    rw [List.singleton_append]
    show varlenDecode (n :: rest) = .ok (n, rest, 1)
    simp only [varlenDecode]
    rw [if_neg (by omega : ¬ n = 255), if_neg (by omega : ¬ n = 254),
      if_neg (by omega : ¬ n = 253)]
  case isFalse h =>
    split at hE
    case isTrue h2 =>
      injection hE with h1; subst h1
      rw [List.cons_append]
      simp only [varlenDecode]
      rw [if_pos trivial, unpackLE_append 2 n rest (by norm_num; omega), drop_led]
      simp [natToLE_length]
    case isFalse h2 =>
      split at hE
      case isTrue h3 =>
        injection hE with h1; subst h1
        rw [List.cons_append]
        simp only [varlenDecode]
        rw [if_pos trivial, unpackLE_append 4 n rest (by norm_num; omega), drop_led]
        simp [natToLE_length]
      case isFalse h3 =>
        split at hE
        case isTrue h4 =>
          injection hE with h1; subst h1
          rw [List.cons_append]
          simp only [varlenDecode]
          rw [if_pos trivial, unpackLE_append 8 n rest (by norm_num; omega), drop_led]
          simp [natToLE_length]
        case isFalse h4 => cases hE

theorem varlenDecode_trunc {n : Nat} {e : ByteSeq} (hE : varlenEncode n = .ok e)
    {j : Nat} (hj : j < e.length) (rest : ByteSeq) :
    varlenDecode ((e ++ rest).take j) = .error .truncatedInput := by
  unfold varlenEncode at hE
  split at hE
  case isTrue h =>
    injection hE with h1; subst h1
    have hj0 : j = 0 := by simpa using hj
    subst hj0; rfl
  case isFalse h =>
    split at hE
    case isTrue h2 =>
      injection hE with h1; subst h1
      have hj2 : j < 3 := by simpa [natToLE_length] using hj
      rcases Nat.eq_zero_or_pos j with hj0 | hjpos
      · subst hj0; rfl
      · obtain ⟨jp, rfl⟩ : ∃ jp, j = jp + 1 := ⟨j - 1, by omega⟩
        rw [List.cons_append, List.take_succ_cons]
        simp only [varlenDecode]
        rw [unpackLE_short 2 _ (by
          rw [List.length_take, List.length_append, natToLE_length]; omega)]
        simp
    case isFalse h2 =>
      split at hE
      case isTrue h3 =>
        injection hE with h1; subst h1
        have hj2 : j < 5 := by simpa [natToLE_length] using hj
        rcases Nat.eq_zero_or_pos j with hj0 | hjpos
        · subst hj0; rfl
        · obtain ⟨jp, rfl⟩ : ∃ jp, j = jp + 1 := ⟨j - 1, by omega⟩
          rw [List.cons_append, List.take_succ_cons]
          simp only [varlenDecode]
          rw [unpackLE_short 4 _ (by
            rw [List.length_take, List.length_append, natToLE_length]; omega)]
          simp
      case isFalse h3 =>
        split at hE
        case isTrue h4 =>
          injection hE with h1; subst h1
          have hj2 : j < 9 := by simpa [natToLE_length] using hj
          rcases Nat.eq_zero_or_pos j with hj0 | hjpos
          · subst hj0; rfl
          · obtain ⟨jp, rfl⟩ : ∃ jp, j = jp + 1 := ⟨j - 1, by omega⟩
            rw [List.cons_append, List.take_succ_cons]
            simp only [varlenDecode]
            rw [unpackLE_short 8 _ (by
              rw [List.length_take, List.length_append, natToLE_length]; omega)]
            simp
        case isFalse h4 => cases hE

/-! ### List bookkeeping helpers -/

theorem take_app_ge (a b : ByteSeq) {n : Nat} (h : a.length ≤ n) :
    (a ++ b).take n = a ++ b.take (n - a.length) := by
  rw [List.take_append_eq_append_take, List.take_of_length_le h]

theorem length_take_of_le {b : ByteSeq} {n : Nat} (h : n ≤ b.length) :
    (b.take n).length = n := by
  rw [List.length_take]; omega

/-! ### Input-loop lemmas -/

theorem parseInputs_cons (i : TxIn) (sl : ByteSeq) (n : Nat) (D : ByteSeq) (rc : Nat)
    (h32 : i.prevHash.length = 32)
    (hidx : i.prevIndex < 2 ^ (8 * 4))
    (hsl : varlenEncode i.sigScript.length = .ok sl)
    (hsq : i.seqno < 2 ^ (8 * 4)) :
    parseInputs (n + 1)
      (i.prevHash ++ (natToLE 4 i.prevIndex ++ (sl ++ (i.sigScript ++ (natToLE 4 i.seqno ++ D))))) rc
      = (parseInputs n D (rc + 36 + sl.length + i.sigScript.length + 4)).map
          (fun p => (i :: p.1, p.2)) := by
  have hd36 : (i.prevHash ++ (natToLE 4 i.prevIndex ++ (sl ++ (i.sigScript ++ (natToLE 4 i.seqno ++ D))))).drop 36
      = sl ++ (i.sigScript ++ (natToLE 4 i.seqno ++ D)) := by
    rw [show (36 : Nat) = 32 + 4 from rfl, ← List.drop_drop, List.drop_left' h32, drop_led]
  have hd4 : (i.sigScript ++ (natToLE 4 i.seqno ++ D)).drop (i.sigScript.length + 4) = D := by
    rw [← List.drop_drop, List.drop_left, drop_led]
  simp only [parseInputs]
  simp only [List.drop_left' h32, unpackLE_append 4 _ _ hidx, hd36, varlenDecode_append hsl,
    List.drop_left, unpackLE_append 4 _ _ hsq, hd4, List.take_left' h32, List.take_left]
  cases parseInputs n D (rc + 36 + sl.length + i.sigScript.length + 4) <;> rfl

theorem parseInputs_append :
    ∀ (ins : List TxIn) {e : ByteSeq}, assembleInputs ins = .ok e →
    (∀ i ∈ ins, i.prevHash.length = 32) →
    ∀ (rest : ByteSeq) (rc : Nat),
    parseInputs ins.length (e ++ rest) rc = .ok (ins, rest, rc + e.length) := by
  intro ins
  induction ins with
  | nil =>
    intro e hE h32 rest rc
    injection hE with h1; subst h1
    simp [parseInputs]
  | cons i tl ih =>
    intro e hE h32 rest rc
    unfold assembleInputs at hE
    rcases hpk : packLE 4 i.prevIndex with e1 | idxB
    · rw [hpk] at hE; cases hE
    rw [hpk] at hE
    rcases hsl : varlenEncode i.sigScript.length with e1 | sl
    · rw [hsl] at hE; cases hE
    rw [hsl] at hE
    rcases hsq : packLE 4 i.seqno with e1 | sq
    · rw [hsq] at hE; cases hE
    rw [hsq] at hE
    rcases het : assembleInputs tl with e1 | et
    · rw [het] at hE; cases hE
    rw [het] at hE
    injection hE with h1; subst h1
    obtain ⟨hidxB, hidxlt⟩ := packLE_ok hpk
    obtain ⟨hsqB, hsqlt⟩ := packLE_ok hsq
    subst hidxB hsqB
    have h32h : i.prevHash.length = 32 := h32 i (by simp)
    have h32t : ∀ x ∈ tl, x.prevHash.length = 32 := fun x hx => h32 x (by simp [hx])
    simp only [List.append_assoc, List.length_cons]
    rw [parseInputs_cons i sl tl.length (et ++ rest) rc h32h hidxlt hsl hsqlt,
      ih het h32t rest _]
    simp [Except.map, List.length_append, natToLE_length, h32h] <;> omega

/-! ### Output-loop lemmas -/

theorem parseOutputs_cons (o : TxOut) (sl : ByteSeq) (n : Nat) (D : ByteSeq) (rc : Nat)
    (hamt : o.amount < 2 ^ (8 * 8))
    (hsl : varlenEncode o.pkScript.length = .ok sl) :
    parseOutputs (n + 1) (natToLE 8 o.amount ++ (sl ++ (o.pkScript ++ D))) rc
      = (parseOutputs n D (rc + 8 + sl.length + o.pkScript.length)).map
          (fun p => (o :: p.1, p.2)) := by
  simp only [parseOutputs]
  simp only [unpackLE_append 8 _ _ hamt, drop_led, varlenDecode_append hsl,
    List.drop_left, List.take_left]
  cases parseOutputs n D (rc + 8 + sl.length + o.pkScript.length) <;> rfl

theorem parseOutputs_append :
    ∀ (outs : List TxOut) {e : ByteSeq}, assembleOutputs outs = .ok e →
    ∀ (rest : ByteSeq) (rc : Nat),
    parseOutputs outs.length (e ++ rest) rc = .ok (outs, rest, rc + e.length) := by
  intro outs
  induction outs with
  | nil =>
    intro e hE rest rc
    injection hE with h1; subst h1
    simp [parseOutputs]
  | cons o tl ih =>
    intro e hE rest rc
    unfold assembleOutputs at hE
    rcases hamt : packLE 8 o.amount with e1 | amtB
    · rw [hamt] at hE; cases hE
    rw [hamt] at hE
    rcases hsl : varlenEncode o.pkScript.length with e1 | sl
    · rw [hsl] at hE; cases hE
    rw [hsl] at hE
    rcases het : assembleOutputs tl with e1 | et
    · rw [het] at hE; cases hE
    rw [het] at hE
    injection hE with h1; subst h1
    obtain ⟨hamtB, hamtlt⟩ := packLE_ok hamt
    subst hamtB
    simp only [List.append_assoc, List.length_cons]
    rw [parseOutputs_cons o sl tl.length (et ++ rest) rc hamtlt hsl,
      ih het rest _]
    simp [Except.map, List.length_append, natToLE_length] <;> omega

/-! ### Assembly inversion and the strict decode of an assembled buffer -/

theorem assembleBytes_ok {v lk : Nat} {ins : List TxIn} {outs : List TxOut}
    {B : ByteSeq} (hA : assembleBytes v ins outs lk = .ok B) :
    ∃ cIn dIn cOut dOut,
      varlenEncode ins.length = .ok cIn ∧ assembleInputs ins = .ok dIn ∧
      varlenEncode outs.length = .ok cOut ∧ assembleOutputs outs = .ok dOut ∧
      v < 2 ^ (8 * 4) ∧ lk < 2 ^ (8 * 4) ∧
      B = natToLE 4 v ++ (cIn ++ (dIn ++ (cOut ++ (dOut ++ natToLE 4 lk)))) := by
  unfold assembleBytes at hA
  rcases hv : packLE 4 v with e1 | d0
  · rw [hv] at hA; cases hA
  rw [hv] at hA
  rcases hcIn : varlenEncode ins.length with e1 | cIn
  · rw [hcIn] at hA; cases hA
  rw [hcIn] at hA
  rcases hdIn : assembleInputs ins with e1 | dIn
  · rw [hdIn] at hA; cases hA
  rw [hdIn] at hA
  rcases hcOut : varlenEncode outs.length with e1 | cOut
  · rw [hcOut] at hA; cases hA
  rw [hcOut] at hA
  rcases hdOut : assembleOutputs outs with e1 | dOut
  · rw [hdOut] at hA; cases hA
  rw [hdOut] at hA
  rcases hlk : packLE 4 lk with e1 | dLk
  · rw [hlk] at hA; cases hA
  rw [hlk] at hA
  injection hA with h1
  obtain ⟨hd0, hvlt⟩ := packLE_ok hv
  obtain ⟨hdLk, hlklt⟩ := packLE_ok hlk
  subst hd0 hdLk
  exact ⟨cIn, dIn, cOut, dOut, rfl, rfl, rfl, rfl, hvlt, hlklt, h1.symm⟩

theorem disassemble_append {v lk : Nat} {ins : List TxIn} {outs : List TxOut}
    {B : ByteSeq} (h32 : ∀ i ∈ ins, i.prevHash.length = 32)
    (hA : assembleBytes v ins outs lk = .ok B)
    (extra : ByteSeq) (t : Txn) (hdata : t.data = some (B ++ extra)) :
    Txn.disassemble t false
      = ({ t with version := some v, inputs := some ins, outputs := some outs, locktime := some lk },
         if extra = [] then .ok none else .error .trailingData) := by
  obtain ⟨cIn, dIn, cOut, dOut, hcIn, hdIn, hcOut, hdOut, hvlt, hlklt, hB⟩ :=
    assembleBytes_ok hA
  subst hB
  simp only [Txn.disassemble, hdata, List.append_assoc]
  simp only [unpackLE_append 4 _ _ hvlt, drop_led, varlenDecode_append hcIn,
    parseInputs_append ins hdIn h32, varlenDecode_append hcOut,
    parseOutputs_append outs hdOut, unpackLE_append 4 _ _ hlklt]
  by_cases hx : extra = []
  · subst hx
    simp [List.length_append, natToLE_length]
  · have hlen : ¬ (natToLE 4 lk).length + extra.length = 4 := by
      rw [natToLE_length]
      have : extra.length ≠ 0 := fun h0 => hx (List.length_eq_zero.mp h0)
      omega
    simp [hx, hlen]

theorem assembleBytes_ne_nil {v lk : Nat} {ins : List TxIn} {outs : List TxOut}
    {B : ByteSeq} (hA : assembleBytes v ins outs lk = .ok B) : B ≠ [] := by
  obtain ⟨cIn, dIn, cOut, dOut, _, _, _, _, _, _, hB⟩ := assembleBytes_ok hA
  subst hB
  intro h
  have := congrArg List.length h
  simp [List.length_append, natToLE_length] at this

/-- C1: decoding a canonical transaction byte sequence `B` (any sequence
produced by `assemble` from fields with 32-byte previous-output hashes)
succeeds, reproduces exactly the assembled fields with no normalization,
and a subsequent `assemble` of the decoded object re-encodes exactly the
original bytes `B` (and leaves the object unchanged). -/
theorem disassemble_assemble_roundTrip (dblsha : ByteSeq → ByteSeq)
    (v : Nat) (ins : List TxIn) (outs : List TxOut) (lk : Nat) (B : ByteSeq)
    (h32 : ∀ i ∈ ins, i.prevHash.length = 32)
    (hA : assembleBytes v ins outs lk = .ok B) :
    ∃ t : Txn,
      Txn.disassemble (Txn.init dblsha (some B)) false = (t, .ok none) ∧
      t.data = some B ∧ t.txid = some (dblsha B) ∧
      t.version = some v ∧ t.inputs = some ins ∧ t.outputs = some outs ∧
      t.locktime = some lk ∧
      Txn.assemble t dblsha = .ok t := by
  have hBne : B ≠ [] := assembleBytes_ne_nil hA
  have ht0 : Txn.init dblsha (some B)
      = ⟨some B, some (dblsha B), none, none, none, none⟩ := by
    simp [Txn.init, hBne]
  have hdata : (Txn.init dblsha (some B)).data = some (B ++ []) := by
    rw [ht0, List.append_nil]
  have H := disassemble_append h32 hA [] _ hdata
  rw [ht0] at H
  refine ⟨⟨some B, some (dblsha B), some v, some ins, some outs, some lk⟩,
    ?_, rfl, rfl, rfl, rfl, rfl, rfl, ?_⟩
  · rw [ht0]
    simpa using H
  · simp [Txn.assemble, hA]

theorem roundTrip_witness :
    ∃ t : Txn,
      Txn.disassemble (Txn.init (fun l => l) (some [1, 0, 0, 0, 0, 0, 0, 0, 0, 0])) false
        = (t, .ok none) ∧
      t.data = some [1, 0, 0, 0, 0, 0, 0, 0, 0, 0] ∧
      t.txid = some ((fun l => l) [1, 0, 0, 0, 0, 0, 0, 0, 0, 0]) ∧
      t.version = some 1 ∧ t.inputs = some [] ∧ t.outputs = some [] ∧
      t.locktime = some 0 ∧
      Txn.assemble t (fun l => l) = .ok t :=
  disassemble_assemble_roundTrip (fun l => l) 1 [] [] 0 _ (by simp) rfl

/-- C4: decoding a buffer that is a complete canonical transaction followed
by at least one extra byte, without opting into trailing-data tolerance,
fails with the trailing-data error (the failing `assert len(data) == 4` of
the source, modelled as a reported, catchable error). -/
theorem disassemble_strict_trailingData (dblsha : ByteSeq → ByteSeq)
    (v : Nat) (ins : List TxIn) (outs : List TxOut) (lk : Nat)
    (B extra : ByteSeq)
    (h32 : ∀ i ∈ ins, i.prevHash.length = 32)
    (hA : assembleBytes v ins outs lk = .ok B)
    (hx : extra ≠ []) :
    (Txn.disassemble (Txn.init dblsha (some (B ++ extra))) false).2
      = .error .trailingData := by
  have hne : B ++ extra ≠ [] := by
    intro h
    rcases List.append_eq_nil.mp h with ⟨h1, h2⟩
    exact hx h2
  have hdata : (Txn.init dblsha (some (B ++ extra))).data = some (B ++ extra) := by
    simp [Txn.init, hne]
  rw [disassemble_append h32 hA extra _ hdata]
  simp [hx]

theorem trailingData_witness :
    (Txn.disassemble (Txn.init (fun l => l)
        (some ([1, 0, 0, 0, 0, 0, 0, 0, 0, 0] ++ [7]))) false).2
      = .error .trailingData :=
  disassemble_strict_trailingData (fun l => l) 1 [] [] 0
    [1, 0, 0, 0, 0, 0, 0, 0, 0, 0] [7] (by simp) rfl (by simp)

/-! ### What `disassemble` does and does not mutate -/

theorem disassemble_state (t : Txn) (re : Bool) :
    (Txn.disassemble t re).1.txid = t.txid ∧
    ((Txn.disassemble t re).1.data = t.data ∨ ∃ x, (Txn.disassemble t re).2 = .ok x) := by
  simp only [Txn.disassemble]
  (repeat' split) <;>
    first
      | exact ⟨rfl, Or.inl rfl⟩
      | exact ⟨rfl, Or.inr ⟨_, rfl⟩⟩

theorem disassemble_strict_data (t : Txn) :
    (Txn.disassemble t false).1.data = t.data := by
  simp only [Txn.disassemble]
  (repeat' split) <;> first | rfl | (exfalso; simp_all)

/-- C2: constructing a transaction from non-empty raw bytes `B` sets the
identity hash to `dblsha B` at once, and a subsequent decode (in either
mode) leaves that identity hash unchanged — `disassemble` never assigns
`self.txid`. -/
theorem init_hash_stable (dblsha : ByteSeq → ByteSeq) (B : ByteSeq)
    (hB : B ≠ []) (re : Bool) :
    (Txn.init dblsha (some B)).txid = some (dblsha B) ∧
    ((Txn.init dblsha (some B)).disassemble re).1.txid = some (dblsha B) := by
  have h1 : (Txn.init dblsha (some B)).txid = some (dblsha B) := by
    simp [Txn.init, hB]
  exact ⟨h1, by rw [(disassemble_state _ re).1, h1]⟩

theorem init_hash_stable_witness :
    (Txn.init (fun l => l) (some [1])).txid = some ((fun l => l) [1]) ∧
    ((Txn.init (fun l => l) (some [1])).disassemble false).1.txid
      = some ((fun l => l) [1]) :=
  init_hash_stable (fun l => l) [1] (by simp) false

/-- C3 (counterexample): with the double hash instantiated as the identity
function, constructing from an 11-byte buffer (a complete empty transaction
followed by one trailing byte) and decoding with trailing-data tolerance
truncates the raw-bytes cache to the 10-byte prefix but leaves the identity
hash computed over the original 11 bytes, so the advertised invariant
`txid = dblsha(data)` does not survive the truncating decode path. -/
theorem idhash_invariant_cex :
    (Txn.disassemble (Txn.init (fun l => l) (some [1,0,0,0,0,0,0,0,0,0,7])) true).1.data
        = some [1,0,0,0,0,0,0,0,0,0] ∧
    (Txn.disassemble (Txn.init (fun l => l) (some [1,0,0,0,0,0,0,0,0,0,7])) true).1.txid
        = some [1,0,0,0,0,0,0,0,0,0,7] ∧
    ¬ ((Txn.disassemble (Txn.init (fun l => l) (some [1,0,0,0,0,0,0,0,0,0,7])) true).1.txid
        = Option.map (fun l => l)
            (Txn.disassemble (Txn.init (fun l => l) (some [1,0,0,0,0,0,0,0,0,0,7])) true).1.data) :=
  ⟨rfl, rfl, by decide⟩

/-- C3 (amended): the relation `txid = dblsha(data)` holds after
construction from non-empty bytes and after `assemble`, and the strict
decode path preserves both the cache and the hash; the trailing-tolerant
decode path is excluded, since it truncates the cache without recomputing
the hash. -/
theorem idhash_invariant_amended (dblsha : ByteSeq → ByteSeq) (B : ByteSeq)
    (t t' u : Txn) (hB : B ≠ []) (hA : Txn.assemble t dblsha = .ok t') :
    ((Txn.init dblsha (some B)).data = some B ∧
      (Txn.init dblsha (some B)).txid = some (dblsha B)) ∧
    (∃ d, t'.data = some d ∧ t'.txid = some (dblsha d)) ∧
    ((Txn.disassemble u false).1.data = u.data ∧
      (Txn.disassemble u false).1.txid = u.txid) := by
  refine ⟨⟨by simp [Txn.init, hB], by simp [Txn.init, hB]⟩, ?_,
    disassemble_strict_data u, (disassemble_state u false).1⟩
  unfold Txn.assemble at hA
  split at hA
  · split at hA
    · cases hA
    · injection hA with h1
      subst h1
      exact ⟨_, rfl, rfl⟩
  · cases hA

theorem idhash_invariant_amended_witness :
    (((Txn.init (fun l => l) (some [1])).data = some [1] ∧
      (Txn.init (fun l => l) (some [1])).txid = some ((fun l => l) [1])) ∧
    (∃ d, (Txn.mk (some [1,0,0,0,0,0,0,0,0,0]) (some [1,0,0,0,0,0,0,0,0,0])
        (some 1) (some []) (some []) (some 0)).data = some d ∧
      (Txn.mk (some [1,0,0,0,0,0,0,0,0,0]) (some [1,0,0,0,0,0,0,0,0,0])
        (some 1) (some []) (some []) (some 0)).txid = some ((fun l => l) d)) ∧
    ((Txn.disassemble Txn.new false).1.data = Txn.new.data ∧
      (Txn.disassemble Txn.new false).1.txid = Txn.new.txid)) :=
  idhash_invariant_amended (fun l => l) [1] Txn.new
    (Txn.mk (some [1,0,0,0,0,0,0,0,0,0]) (some [1,0,0,0,0,0,0,0,0,0])
      (some 1) (some []) (some []) (some 0)) Txn.new (by simp) rfl

/-- C5 (counterexample): decoding the 4-byte buffer `[2,0,0,0]` fails (the
input-count read runs past the end), yet the failing decode has already
assigned `self.version := 2` while `locktime` keeps its pre-decode value,
so partial state is publicly visible after a reported error. -/
theorem disassemble_partial_state_cex :
    (Txn.disassemble (Txn.init (fun l => l) (some [2, 0, 0, 0])) false).2
        = .error .truncatedInput ∧
    (Txn.init (fun l => l) (some [2, 0, 0, 0])).version = none ∧
    (Txn.disassemble (Txn.init (fun l => l) (some [2, 0, 0, 0])) false).1.version
        = some 2 ∧
    (Txn.disassemble (Txn.init (fun l => l) (some [2, 0, 0, 0])) false).1.locktime
        = none :=
  ⟨rfl, rfl, rfl, rfl⟩

/-- C5 (amended): on a failed decode the raw-bytes cache and the identity
hash are unchanged, but the structured fields may be partially updated (the
source assigns version, inputs, outputs, locktime in order as parsing
proceeds, so a failure can leave an earlier prefix of them updated). -/
theorem disassemble_error_cache_unchanged (t : Txn) (re : Bool) (e : Err)
    (h : (Txn.disassemble t re).2 = .error e) :
    (Txn.disassemble t re).1.data = t.data ∧
    (Txn.disassemble t re).1.txid = t.txid := by
  obtain ⟨h1, h2 | ⟨x, hx⟩⟩ := disassemble_state t re
  · exact ⟨h2, h1⟩
  · rw [hx] at h; cases h

theorem disassemble_error_cache_unchanged_witness :
    (Txn.disassemble (Txn.init (fun l => l) (some [3, 0, 0, 0])) false).1.data
        = (Txn.init (fun l => l) (some [3, 0, 0, 0])).data ∧
    (Txn.disassemble (Txn.init (fun l => l) (some [3, 0, 0, 0])) false).1.txid
        = (Txn.init (fun l => l) (some [3, 0, 0, 0])).txid :=
  disassemble_error_cache_unchanged _ false .truncatedInput rfl

/-- C7: `isCoinbase` answers true exactly when the input sequence is one
single input whose previous-output reference is the null sentinel (32 zero
bytes, index 0xffffffff), and false for every other shape of the input
sequence. -/
theorem isCoinbase_iff (t : Txn) (ins : List TxIn) (h : t.inputs = some ins) :
    (Txn.isCoinbase t = .ok true ↔
      ∃ sig seq, ins = [⟨nullprev, 0xffffffff, sig, seq⟩]) ∧
    (Txn.isCoinbase t = .ok false ↔
      ¬ ∃ sig seq, ins = [⟨nullprev, 0xffffffff, sig, seq⟩]) := by
  unfold Txn.isCoinbase
  rw [h]
  match ins with
  | [] => simp
  | [i] =>
    rcases i with ⟨ph, pi, sg, sq⟩
    simp [TxIn.mk.injEq]
  | i :: j :: tl => simp

theorem isCoinbase_iff_witness :
    (Txn.isCoinbase ⟨none, none, none, some [⟨nullprev, 0xffffffff, [], 0⟩], none, none⟩
        = .ok true ↔
      ∃ sig seq, [TxIn.mk nullprev 0xffffffff [] 0] = [⟨nullprev, 0xffffffff, sig, seq⟩]) ∧
    (Txn.isCoinbase ⟨none, none, none, some [⟨nullprev, 0xffffffff, [], 0⟩], none, none⟩
        = .ok false ↔
      ¬ ∃ sig seq, [TxIn.mk nullprev 0xffffffff [] 0] = [⟨nullprev, 0xffffffff, sig, seq⟩]) :=
  isCoinbase_iff _ [⟨nullprev, 0xffffffff, [], 0⟩] rfl

/-- C8: `setCoinbase` replaces the whole input sequence by the single
coinbase input (null sentinel previous-output); with a height the unlocking
script is exactly the minimal height encoding followed by the given suffix,
and without a height it is exactly the given suffix. -/
theorem setCoinbase_spec (t : Txn) (sigScript : ByteSeq) (seqno H : Nat) :
    Txn.setCoinbase t sigScript seqno (some H)
        = { t with inputs := some [⟨nullprev, 0xffffffff, encodeUNum H ++ sigScript, seqno⟩] } ∧
    Txn.setCoinbase t sigScript seqno none
        = { t with inputs := some [⟨nullprev, 0xffffffff, sigScript, seqno⟩] } :=
  ⟨rfl, rfl⟩

/-- C9: `Txn.new` has version 1, no inputs, no outputs, locktime 0 and no
cached raw bytes (nor hash), and assembling it produces exactly the ten
bytes 01 00 00 00 00 00 00 00 00 00 (stored as the new cache, with the
hash recomputed over them). -/
theorem new_empty_encoding (dblsha : ByteSeq → ByteSeq) :
    Txn.new = ⟨none, none, some 1, some [], some [], some 0⟩ ∧
    Txn.assemble Txn.new dblsha
      = .ok ⟨some [1,0,0,0,0,0,0,0,0,0], some (dblsha [1,0,0,0,0,0,0,0,0,0]),
          some 1, some [], some [], some 0⟩ :=
  ⟨rfl, rfl⟩

/-- C10: constructing from an empty byte sequence behaves exactly like
constructing with no data at all (`if data:` is false for empty bytes):
neither a raw-bytes cache nor an identity hash is stored. -/
theorem init_empty_bytes (dblsha : ByteSeq → ByteSeq) :
    Txn.init dblsha (some []) = Txn.init dblsha none ∧
    (Txn.init dblsha (some [])).data = none ∧
    (Txn.init dblsha (some [])).txid = none :=
  ⟨rfl, rfl, rfl⟩

/-! ### Truncated-buffer lemmas: every cut strictly inside a canonical
encoding makes the decode raise a reads-past-the-end error -/

theorem take_app_ge' (a b : ByteSeq) (m : Nat) {n : Nat} (hm : a.length = m)
    (h : m ≤ n) : (a ++ b).take n = a ++ b.take (n - m) := by
  subst hm; exact take_app_ge a b h

theorem assembleInputs_cons_ok {i : TxIn} {tl : List TxIn} {e : ByteSeq}
    (hE : assembleInputs (i :: tl) = .ok e) :
    ∃ sl et, varlenEncode i.sigScript.length = .ok sl ∧ assembleInputs tl = .ok et ∧
      i.prevIndex < 2 ^ (8 * 4) ∧ i.seqno < 2 ^ (8 * 4) ∧
      e = i.prevHash ++ (natToLE 4 i.prevIndex ++ (sl ++ (i.sigScript ++ (natToLE 4 i.seqno ++ et)))) := by
  unfold assembleInputs at hE
  rcases hpk : packLE 4 i.prevIndex with e1 | idxB
  · rw [hpk] at hE; cases hE
  rw [hpk] at hE
  rcases hsl : varlenEncode i.sigScript.length with e1 | sl
  · rw [hsl] at hE; cases hE
  rw [hsl] at hE
  rcases hsq : packLE 4 i.seqno with e1 | sq
  · rw [hsq] at hE; cases hE
  rw [hsq] at hE
  rcases het : assembleInputs tl with e1 | et
  · rw [het] at hE; cases hE
  rw [het] at hE
  injection hE with h1
  obtain ⟨hidxB, hidxlt⟩ := packLE_ok hpk
  obtain ⟨hsqB, hsqlt⟩ := packLE_ok hsq
  subst hidxB hsqB
  exact ⟨sl, et, rfl, rfl, hidxlt, hsqlt, h1.symm⟩

theorem assembleOutputs_cons_ok {o : TxOut} {tl : List TxOut} {e : ByteSeq}
    (hE : assembleOutputs (o :: tl) = .ok e) :
    ∃ sl et, varlenEncode o.pkScript.length = .ok sl ∧ assembleOutputs tl = .ok et ∧
      o.amount < 2 ^ (8 * 8) ∧
      e = natToLE 8 o.amount ++ (sl ++ (o.pkScript ++ et)) := by
  unfold assembleOutputs at hE
  rcases hamt : packLE 8 o.amount with e1 | amtB
  · rw [hamt] at hE; cases hE
  rw [hamt] at hE
  rcases hsl : varlenEncode o.pkScript.length with e1 | sl
  · rw [hsl] at hE; cases hE
  rw [hsl] at hE
  rcases het : assembleOutputs tl with e1 | et
  · rw [het] at hE; cases hE
  rw [het] at hE
  injection hE with h1
  obtain ⟨hamtB, hamtlt⟩ := packLE_ok hamt
  subst hamtB
  exact ⟨sl, et, rfl, rfl, hamtlt, h1.symm⟩

theorem parseInputs_head_short {D : ByteSeq} (hj : D.length < 36) (n rc : Nat) :
    parseInputs (n + 1) D rc = .error .truncatedInput := by
  have hshort : (D.drop 32).length < 4 := by rw [List.length_drop]; omega
  simp only [parseInputs]
  rw [unpackLE_short 4 _ hshort]

theorem parseOutputs_head_short {D : ByteSeq} (hj : D.length < 8) (n rc : Nat) :
    parseOutputs (n + 1) D rc = .error .truncatedInput := by
  simp only [parseOutputs]
  rw [unpackLE_short 8 _ hj]

theorem parseInputs_step36 {ph T : ByteSeq} {idx : Nat} (h32 : ph.length = 32)
    (hidx : idx < 2 ^ (8 * 4)) (n rc : Nat) :
    parseInputs (n + 1) (ph ++ (natToLE 4 idx ++ T)) rc
      = match varlenDecode T with
        | .error e => .error e
        | .ok (slen, d1, c) =>
          match unpackLE 4 ((d1.drop slen).take 4) with
          | .error e => .error e
          | .ok seq =>
            match parseInputs n (d1.drop (slen + 4)) (rc + 36 + c + slen + 4) with
            | .error e => .error e
            | .ok (rest, d2, rc2) => .ok (⟨ph, idx, d1.take slen, seq⟩ :: rest, d2, rc2) := by
  have hd36 : (ph ++ (natToLE 4 idx ++ T)).drop 36 = T := by
    rw [show (36 : Nat) = 32 + 4 from rfl, ← List.drop_drop, List.drop_left' h32, drop_led]
  simp only [parseInputs]
  rw [List.drop_left' h32, unpackLE_append 4 _ _ hidx, hd36, List.take_left' h32]

theorem parseInputs_step36_varint {ph : ByteSeq} {idx : Nat} (h32 : ph.length = 32)
    (hidx : idx < 2 ^ (8 * 4)) {m : Nat} {sl : ByteSeq} (hsl : varlenEncode m = .ok sl)
    (W : ByteSeq) (n rc : Nat) :
    parseInputs (n + 1) (ph ++ (natToLE 4 idx ++ (sl ++ W))) rc
      = match unpackLE 4 ((W.drop m).take 4) with
        | .error e => .error e
        | .ok seq =>
          match parseInputs n (W.drop (m + 4)) (rc + 36 + sl.length + m + 4) with
          | .error e => .error e
          | .ok (rest, d2, rc2) => .ok (⟨ph, idx, W.take m, seq⟩ :: rest, d2, rc2) := by
  rw [parseInputs_step36 h32 hidx, varlenDecode_append hsl]

theorem parseOutputs_step8 {T : ByteSeq} {amt : Nat} (hamt : amt < 2 ^ (8 * 8)) (n rc : Nat) :
    parseOutputs (n + 1) (natToLE 8 amt ++ T) rc
      = match varlenDecode T with
        | .error e => .error e
        | .ok (slen, d1, c) =>
          match parseOutputs n (d1.drop slen) (rc + 8 + c + slen) with
          | .error e => .error e
          | .ok (rest, d2, rc2) => .ok (⟨amt, d1.take slen⟩ :: rest, d2, rc2) := by
  simp only [parseOutputs]
  rw [unpackLE_append 8 _ _ hamt, drop_led]

theorem parseOutputs_step8_varint {amt m : Nat} (hamt : amt < 2 ^ (8 * 8)) {sl : ByteSeq}
    (hsl : varlenEncode m = .ok sl) (W : ByteSeq) (n rc : Nat) :
    parseOutputs (n + 1) (natToLE 8 amt ++ (sl ++ W)) rc
      = match parseOutputs n (W.drop m) (rc + 8 + sl.length + m) with
        | .error e => .error e
        | .ok (rest, d2, rc2) => .ok (⟨amt, W.take m⟩ :: rest, d2, rc2) := by
  rw [parseOutputs_step8 hamt, varlenDecode_append hsl]

theorem parseInputs_trunc :
    ∀ (ins : List TxIn) {e : ByteSeq}, assembleInputs ins = .ok e →
    (∀ i ∈ ins, i.prevHash.length = 32) →
    ∀ {j : Nat}, j < e.length → ∀ (rest : ByteSeq) (rc : Nat),
    parseInputs ins.length ((e ++ rest).take j) rc = .error .truncatedInput := by
  intro ins
  induction ins with
  | nil =>
    intro e hE h32 j hj rest rc
    injection hE with h1; subst h1
    simp at hj
  | cons i tl ih =>
    intro e hE h32 j hj rest rc
    obtain ⟨sl, et, hsl, het, hidxlt, hsqlt, hEq⟩ := assembleInputs_cons_ok hE
    subst hEq
    have h32h : i.prevHash.length = 32 := h32 i (by simp)
    have h32t : ∀ x ∈ tl, x.prevHash.length = 32 := fun x hx => h32 x (by simp [hx])
    have hjL : j < 32 + (4 + (sl.length + (i.sigScript.length + (4 + et.length)))) := by
      simpa [List.length_append, natToLE_length, h32h] using hj
    simp only [List.append_assoc, List.length_cons]
    by_cases hc1 : j < 36
    · have hDlen : ((i.prevHash ++ (natToLE 4 i.prevIndex ++ (sl ++ (i.sigScript ++
          (natToLE 4 i.seqno ++ (et ++ rest)))))).take j).length = j :=
        length_take_of_le (by
          simp only [List.length_append, natToLE_length, h32h]
          omega)
      exact parseInputs_head_short (by omega : _ < 36) tl.length rc
    · by_cases hc2 : j < 36 + sl.length
      · have hD : (i.prevHash ++ (natToLE 4 i.prevIndex ++ (sl ++ (i.sigScript ++
            (natToLE 4 i.seqno ++ (et ++ rest)))))).take j
            = i.prevHash ++ (natToLE 4 i.prevIndex ++ ((sl ++ (i.sigScript ++
              (natToLE 4 i.seqno ++ (et ++ rest)))).take (j - 32 - 4))) := by
          rw [take_app_ge' i.prevHash _ 32 h32h (by omega),
            take_app_ge' (natToLE 4 i.prevIndex) _ 4 (natToLE_length 4 _) (by omega)]
        rw [hD, parseInputs_step36 h32h hidxlt,
          varlenDecode_trunc hsl (by omega : j - 32 - 4 < sl.length) _]
      · by_cases hc3 : j < 36 + sl.length + i.sigScript.length + 4
        · have hD : (i.prevHash ++ (natToLE 4 i.prevIndex ++ (sl ++ (i.sigScript ++
              (natToLE 4 i.seqno ++ (et ++ rest)))))).take j
              = i.prevHash ++ (natToLE 4 i.prevIndex ++ (sl ++ ((i.sigScript ++
                (natToLE 4 i.seqno ++ (et ++ rest))).take (j - 32 - 4 - sl.length)))) := by
            rw [take_app_ge' i.prevHash _ 32 h32h (by omega),
              take_app_ge' (natToLE 4 i.prevIndex) _ 4 (natToLE_length 4 _) (by omega),
              take_app_ge' sl _ sl.length rfl (by omega)]
          have hshort : (((i.sigScript ++ (natToLE 4 i.seqno ++ (et ++ rest))).take
              (j - 32 - 4 - sl.length)).drop i.sigScript.length).length < 4 := by
            rw [List.length_drop, List.length_take]
            omega
          rw [hD, parseInputs_step36_varint h32h hidxlt hsl, unpackLE_short 4 _ hshort]
        · have hD : (i.prevHash ++ (natToLE 4 i.prevIndex ++ (sl ++ (i.sigScript ++
              (natToLE 4 i.seqno ++ (et ++ rest)))))).take j
              = i.prevHash ++ (natToLE 4 i.prevIndex ++ (sl ++ (i.sigScript ++
                (natToLE 4 i.seqno ++ ((et ++ rest).take
                  (j - 32 - 4 - sl.length - i.sigScript.length - 4)))))) := by
            rw [take_app_ge' i.prevHash _ 32 h32h (by omega),
              take_app_ge' (natToLE 4 i.prevIndex) _ 4 (natToLE_length 4 _) (by omega),
              take_app_ge' sl _ sl.length rfl (by omega),
              take_app_ge' i.sigScript _ i.sigScript.length rfl (by omega),
              take_app_ge' (natToLE 4 i.seqno) _ 4 (natToLE_length 4 _) (by omega)]
          rw [hD, parseInputs_cons i sl tl.length _ rc h32h hidxlt hsl hsqlt,
            ih het h32t (by omega : j - 32 - 4 - sl.length - i.sigScript.length - 4 < et.length)
              rest _]
          rfl

theorem parseOutputs_trunc :
    ∀ (outs : List TxOut) {e : ByteSeq}, assembleOutputs outs = .ok e →
    ∀ {j : Nat}, j < e.length → ∀ (rest : ByteSeq) (rc : Nat),
    parseOutputs outs.length ((e ++ rest).take j) rc = .error .truncatedInput ∨
    ∃ l rc2, parseOutputs outs.length ((e ++ rest).take j) rc = .ok (l, [], rc2) := by
  intro outs
  induction outs with
  | nil =>
    intro e hE j hj rest rc
    injection hE with h1; subst h1
    simp at hj
  | cons o tl ih =>
    intro e hE j hj rest rc
    obtain ⟨sl, et, hsl, het, hamtlt, hEq⟩ := assembleOutputs_cons_ok hE
    subst hEq
    have hjL : j < 8 + (sl.length + (o.pkScript.length + et.length)) := by
      simpa [List.length_append, natToLE_length] using hj
    simp only [List.append_assoc, List.length_cons]
    by_cases hc1 : j < 8
    · refine Or.inl ?_
      have hDlen : ((natToLE 8 o.amount ++ (sl ++ (o.pkScript ++ (et ++ rest)))).take j).length = j :=
        length_take_of_le (by
          simp only [List.length_append, natToLE_length]
          omega)
      exact parseOutputs_head_short (by omega) tl.length rc
    · by_cases hc2 : j < 8 + sl.length
      · refine Or.inl ?_
        have hD : (natToLE 8 o.amount ++ (sl ++ (o.pkScript ++ (et ++ rest)))).take j
            = natToLE 8 o.amount ++ ((sl ++ (o.pkScript ++ (et ++ rest))).take (j - 8)) := by
          rw [take_app_ge' (natToLE 8 o.amount) _ 8 (natToLE_length 8 _) (by omega)]
        rw [hD, parseOutputs_step8 hamtlt,
          varlenDecode_trunc hsl (by omega : j - 8 < sl.length) _]
      · by_cases hc3 : j < 8 + sl.length + o.pkScript.length
        · have hD : (natToLE 8 o.amount ++ (sl ++ (o.pkScript ++ (et ++ rest)))).take j
              = natToLE 8 o.amount ++ (sl ++ ((o.pkScript ++ (et ++ rest)).take
                (j - 8 - sl.length))) := by
            rw [take_app_ge' (natToLE 8 o.amount) _ 8 (natToLE_length 8 _) (by omega),
              take_app_ge' sl _ sl.length rfl (by omega)]
          have hnil : ((o.pkScript ++ (et ++ rest)).take (j - 8 - sl.length)).drop
              o.pkScript.length = [] :=
            List.drop_eq_nil_of_le (by rw [List.length_take]; omega)
          rw [hD, parseOutputs_step8_varint hamtlt hsl, hnil]
          cases tl with
          | nil => exact Or.inr ⟨_, _, rfl⟩
          | cons o2 tl2 => exact Or.inl rfl
        · have hD : (natToLE 8 o.amount ++ (sl ++ (o.pkScript ++ (et ++ rest)))).take j
              = natToLE 8 o.amount ++ (sl ++ (o.pkScript ++ ((et ++ rest).take
                (j - 8 - sl.length - o.pkScript.length)))) := by
            rw [take_app_ge' (natToLE 8 o.amount) _ 8 (natToLE_length 8 _) (by omega),
              take_app_ge' sl _ sl.length rfl (by omega),
              take_app_ge' o.pkScript _ o.pkScript.length rfl (by omega)]
          rw [hD, parseOutputs_cons o sl tl.length _ rc hamtlt hsl]
          rcases ih het (by omega : j - 8 - sl.length - o.pkScript.length < et.length)
              rest (rc + 8 + sl.length + o.pkScript.length) with herr | ⟨l, rc2, hok⟩
          · rw [herr]; exact Or.inl rfl
          · rw [hok]; exact Or.inr ⟨_, _, rfl⟩

/-- C6: decoding any strict truncation of a canonical transaction encoding
(the buffer cut at any position before its end, so that some fixed-width or
length-prefixed field runs past the end) fails with the reads-past-the-end
error (`struct.error` / `IndexError`, modelled as `truncatedInput`), and
never silently produces a successfully decoded transaction from a short
read. -/
theorem disassemble_truncated (v : Nat) (ins : List TxIn) (outs : List TxOut)
    (lk : Nat) (B : ByteSeq) (k : Nat)
    (h32 : ∀ i ∈ ins, i.prevHash.length = 32)
    (hA : assembleBytes v ins outs lk = .ok B)
    (hk : k < B.length) :
    (Txn.disassemble ⟨some (B.take k), none, none, none, none, none⟩ false).2
      = .error .truncatedInput := by
  obtain ⟨cIn, dIn, cOut, dOut, hcIn, hdIn, hcOut, hdOut, hvlt, hlklt, hB⟩ :=
    assembleBytes_ok hA
  subst hB
  have hkL : k < 4 + (cIn.length + (dIn.length + (cOut.length + (dOut.length + 4)))) := by
    simpa [List.length_append, natToLE_length] using hk
  by_cases hq1 : k < 4
  · have hsh : ((natToLE 4 v ++ (cIn ++ (dIn ++ (cOut ++ (dOut ++ natToLE 4 lk))))).take k).length < 4 := by
      rw [List.length_take]; omega
    simp only [Txn.disassemble, unpackLE_short 4 _ hsh]
  · have hD1 : (natToLE 4 v ++ (cIn ++ (dIn ++ (cOut ++ (dOut ++ natToLE 4 lk))))).take k
        = natToLE 4 v ++ ((cIn ++ (dIn ++ (cOut ++ (dOut ++ natToLE 4 lk)))).take (k - 4)) := by
      rw [take_app_ge' (natToLE 4 v) _ 4 (natToLE_length 4 _) (by omega)]
    by_cases hq2 : k < 4 + cIn.length
    · simp only [Txn.disassemble, hD1, unpackLE_append 4 _ _ hvlt, drop_led,
        varlenDecode_trunc hcIn (by omega : k - 4 < cIn.length)
          (dIn ++ (cOut ++ (dOut ++ natToLE 4 lk)))]
    · have hD2 : (cIn ++ (dIn ++ (cOut ++ (dOut ++ natToLE 4 lk)))).take (k - 4)
          = cIn ++ ((dIn ++ (cOut ++ (dOut ++ natToLE 4 lk))).take (k - 4 - cIn.length)) := by
        rw [take_app_ge' cIn _ cIn.length rfl (by omega)]
      by_cases hq3 : k < 4 + cIn.length + dIn.length
      · simp only [Txn.disassemble, hD1, hD2, unpackLE_append 4 _ _ hvlt, drop_led,
          varlenDecode_append hcIn,
          parseInputs_trunc ins hdIn h32 (by omega : k - 4 - cIn.length < dIn.length)
            (cOut ++ (dOut ++ natToLE 4 lk)) (4 + cIn.length)]
      · have hD3 : (dIn ++ (cOut ++ (dOut ++ natToLE 4 lk))).take (k - 4 - cIn.length)
            = dIn ++ ((cOut ++ (dOut ++ natToLE 4 lk)).take (k - 4 - cIn.length - dIn.length)) := by
          rw [take_app_ge' dIn _ dIn.length rfl (by omega)]
        by_cases hq4 : k < 4 + cIn.length + dIn.length + cOut.length
        · simp only [Txn.disassemble, hD1, hD2, hD3, unpackLE_append 4 _ _ hvlt, drop_led,
            varlenDecode_append hcIn, parseInputs_append ins hdIn h32,
            varlenDecode_trunc hcOut
              (by omega : k - 4 - cIn.length - dIn.length < cOut.length)
              (dOut ++ natToLE 4 lk)]
        · have hD4 : (cOut ++ (dOut ++ natToLE 4 lk)).take (k - 4 - cIn.length - dIn.length)
              = cOut ++ ((dOut ++ natToLE 4 lk).take
                (k - 4 - cIn.length - dIn.length - cOut.length)) := by
            rw [take_app_ge' cOut _ cOut.length rfl (by omega)]
          by_cases hq5 : k < 4 + cIn.length + dIn.length + cOut.length + dOut.length
          · rcases parseOutputs_trunc outs hdOut
                (by omega : k - 4 - cIn.length - dIn.length - cOut.length < dOut.length)
                (natToLE 4 lk) (4 + cIn.length + dIn.length + cOut.length) with
              herr | ⟨l, rc2, hok⟩
            · simp only [Txn.disassemble, hD1, hD2, hD3, hD4, unpackLE_append 4 _ _ hvlt,
                drop_led, varlenDecode_append hcIn, parseInputs_append ins hdIn h32,
                varlenDecode_append hcOut, herr]
            · simp only [Txn.disassemble, hD1, hD2, hD3, hD4, unpackLE_append 4 _ _ hvlt,
                drop_led, varlenDecode_append hcIn, parseInputs_append ins hdIn h32,
                varlenDecode_append hcOut, hok,
                unpackLE_short 4 ([] : ByteSeq) (by decide)]
          · have hD5 : (dOut ++ natToLE 4 lk).take (k - 4 - cIn.length - dIn.length - cOut.length)
                = dOut ++ ((natToLE 4 lk).take
                  (k - 4 - cIn.length - dIn.length - cOut.length - dOut.length)) := by
              rw [take_app_ge' dOut _ dOut.length rfl (by omega)]
            have hsh : ((natToLE 4 lk).take
                (k - 4 - cIn.length - dIn.length - cOut.length - dOut.length)).length < 4 := by
              rw [List.length_take, natToLE_length]
              omega
            simp only [Txn.disassemble, hD1, hD2, hD3, hD4, hD5, unpackLE_append 4 _ _ hvlt,
              drop_led, varlenDecode_append hcIn, parseInputs_append ins hdIn h32,
              varlenDecode_append hcOut, parseOutputs_append outs hdOut,
              unpackLE_short 4 _ hsh]

theorem truncated_witness :
    (Txn.disassemble ⟨some (([1, 0, 0, 0, 0, 0, 0, 0, 0, 0] : ByteSeq).take 5),
        none, none, none, none, none⟩ false).2
      = .error .truncatedInput :=
  disassemble_truncated 1 [] [] 0 [1, 0, 0, 0, 0, 0, 0, 0, 0, 0] 5
    (by simp) rfl (by simp)
